import Mathlib

/-!
# Verification of the keysharp corpus-statistics core

Shallow embedding of the n-gram counting / filtering / ranking pipeline
(`calculateNGrams`, `filterAndReaggregate`, `mapToRankedArray`,
`calculateFilteredNGrams`), of the CSV export line generation
(`escapeCSVField`, `exportToCSV`), and of the URL state serializer /
deserializer (`serializeState`, `deserializeState`).

Modelling conventions:
* A JS string is a `String` (list of characters); the corpus text is a
  `List Char`, iterated one character at a time exactly as the source's
  index loop does.
* A JS `Map<string, number>` is an association list `List (String × Nat)`
  in insertion order: `Map.set` on a fresh key appends, on an existing key
  updates in place (`mapAdd`); `Map.get(k) || 0` is `lookup`.
* The regex `/\s/` is the explicit ECMAScript whitespace character class;
  the regex `/\w/` is the ECMAScript word class `[A-Za-z0-9_]`.
* `String.prototype.localeCompare` is host- and locale-dependent:
  ECMA-262 requires only a consistent comparison, recommends treating
  canonically equivalent strings as equal, and real hosts use locale
  collation (so the result need not be code-point order and may be 0 on
  distinct strings).  The ranking model is therefore parametric in the
  host comparator (`rankCmpWith`, `mapToRankedArrayWith`); `lexLt`,
  `rankCmp` and `mapToRankedArray` are its code-point instantiation
  (`codePointCmp`), one conforming host behavior, used where the result
  does not depend on the comparator (sums and totals) and in witnesses.
* `Array.prototype.sort` with a consistent comparator is modelled by a
  stable comparator-consistent sort (insertion sort): entries tied by
  the comparator keep their presentation order, as ECMA-262 requires.
* `Number.prototype.toFixed(3)` on the exact rational `freq*100/total` is
  modelled as round-half-up to 3 decimal places in exact arithmetic.
-/

/-- ECMAScript whitespace class `\s`:
`[\t\n\v\f\r    -     　﻿]`. -/
def isWhitespace (c : Char) : Bool :=
  let n := c.toNat
  (9 ≤ n && n ≤ 13) || n = 32 || n = 0xa0 || n = 0x1680 ||
  (0x2000 ≤ n && n ≤ 0x200a) || n = 0x2028 || n = 0x2029 ||
  n = 0x202f || n = 0x205f || n = 0x3000 || n = 0xfeff

/-- ECMAScript word-character class `\w`, i.e. `[A-Za-z0-9_]`. -/
def isWordChar (c : Char) : Bool :=
  ('a' ≤ c && c ≤ 'z') || ('A' ≤ c && c ≤ 'Z') ||
  ('0' ≤ c && c ≤ '9') || c = '_'

/-- A `Map<string, number>` in insertion order. -/
abbrev Table := List (String × Nat)

/-- `map.get(k) || 0`. -/
def lookup (m : Table) (k : String) : Nat :=
  match m with
  | [] => 0
  | (k', v) :: rest => if k' = k then v else lookup rest k

/-- `map.set(k, (map.get(k) || 0) + n)`: update in place when the key is
present, append otherwise. -/
def mapAdd (m : Table) (k : String) (n : Nat) : Table :=
  match m with
  | [] => [(k, n)]
  | (k', v) :: rest =>
      if k' = k then (k', v + n) :: rest else (k', v) :: mapAdd rest k n

/-- The five raw frequency tables returned by `calculateNGrams`. -/
structure RawNGramCounts where
  monograms : Table
  bigrams : Table
  trigrams : Table
  skipgrams : Table
  words : Table
deriving Repr, DecidableEq

/-- Mutable state of the single scan loop: the five accumulating tables
plus the current word accumulator `currentWord`. -/
structure ScanState where
  monograms : Table
  bigrams : Table
  trigrams : Table
  skipgrams : Table
  words : Table
  currentWord : String
deriving Repr, DecidableEq

/-- Loop body of `calculateNGrams` at the position whose character is
`c` and whose remaining suffix is `rest`.  The source looks ahead at
`i+1` and `i+2` only when those indices are in bounds, which is exactly
the shape of the cons patterns on `rest`. -/
def scanStep (c : Char) (rest : List Char) (st : ScanState) : ScanState :=
  let st := { st with monograms := mapAdd st.monograms (String.mk [c]) 1 }
  let st : ScanState :=
    match rest with
    | [] => st
    | c1 :: rest2 =>
      let st := { st with bigrams := mapAdd st.bigrams (String.mk [c, c1]) 1 }
      match rest2 with
      | [] => st
      | c2 :: _ =>
        let st := { st with trigrams := mapAdd st.trigrams (String.mk [c, c1, c2]) 1 }
        { st with skipgrams := mapAdd st.skipgrams (String.mk [c, c2]) 1 }
  if isWhitespace c then
    if st.currentWord.length > 0 then
      { st with words := mapAdd st.words st.currentWord 1, currentWord := "" }
    else st
  else { st with currentWord := st.currentWord.push c }

/-- The scan loop over the remaining text. -/
def scanAux (l : List Char) (st : ScanState) : ScanState :=
  match l with
  | [] => st
  | c :: rest => scanAux rest (scanStep c rest st)

/-- After the loop: add the final word if the text does not end with
whitespace. -/
def flushWords (st : ScanState) : Table :=
  if st.currentWord.length > 0 then mapAdd st.words st.currentWord 1
  else st.words

/-- `calculateNGrams`: single pass over the text producing the five raw
tables, flushing a final non-empty word accumulator after the loop. -/
def calculateNGrams (text : List Char) : RawNGramCounts :=
  let st := scanAux text ⟨[], [], [], [], [], ""⟩
  ⟨st.monograms, st.bigrams, st.trigrams, st.skipgrams, flushWords st⟩

/-- `FilterSettings` from the types module. -/
structure FilterSettings where
  filterWhitespace : Bool
  filterPunctuation : Bool
  caseSensitive : Bool
deriving Repr, DecidableEq

/-- `containsWhitespace`: `/\s/.test(sequence)`. -/
def containsWhitespace (sequence : String) : Bool :=
  sequence.data.any isWhitespace

/-- `containsPunctuation`: `/[^\w\s]/.test(sequence)`. -/
def containsPunctuation (sequence : String) : Bool :=
  sequence.data.any fun c => !(isWordChar c || isWhitespace c)

/-- `toLowerCase`, character by character. -/
def toLowerString (s : String) : String :=
  String.mk (s.data.map Char.toLower)

/-- `normalizeSequence`: lowercase unless case sensitive. -/
def normalizeSequence (sequence : String) (caseSensitive : Bool) : String :=
  if caseSensitive then sequence else toLowerString sequence

/-- The `CountMap` record: filtered map plus running total. -/
structure CountMap where
  map : Table
  total : Nat
deriving Repr, DecidableEq

/-- Loop body of `filterAndReaggregate` for one `(sequence, frequency)`
entry. -/
def fraStep (filters : FilterSettings) (acc : CountMap) (e : String × Nat) :
    CountMap :=
  if filters.filterWhitespace && containsWhitespace e.1 then acc
  else if filters.filterPunctuation && containsPunctuation e.1 then acc
  else
    let normalized := normalizeSequence e.1 filters.caseSensitive
    { map := mapAdd acc.map normalized e.2, total := acc.total + e.2 }

/-- `filterAndReaggregate`: fold the loop body over the entries in
insertion order, starting from an empty map and zero total. -/
def filterAndReaggregate (counts : Table) (filters : FilterSettings) :
    CountMap :=
  counts.foldl (fraStep filters) ⟨[], 0⟩

/-- Code-point lexicographic strict order on character lists: the
spec's "lexicographic" notion, and the string order of the code-point
instantiation of the host comparator. -/
def lexLt (a b : List Char) : Bool :=
  match a, b with
  | [], [] => false
  | [], _ :: _ => true
  | _ :: _, [] => false
  | c :: as, d :: bs => if c < d then true else if d < c then false else lexLt as bs

/-- The two-key sort comparator as a signed value — `b[1] - a[1]` when
frequencies differ, else `a[0].localeCompare(b[0])` — at the code-point
instantiation of `localeCompare`.  The comparator with the host's
`localeCompare` kept abstract is `rankCmpWith` below. -/
def rankCmp (a b : String × Nat) : Int :=
  if b.2 ≠ a.2 then (b.2 : Int) - (a.2 : Int)
  else if lexLt a.1.data b.1.data then -1
  else if a.1 = b.1 then 0
  else 1

/-- `a` sorts no later than `b` under the comparator. -/
def rankLE (a b : String × Nat) : Bool :=
  rankCmp a b ≤ 0

/-- The comparator order as a relation, for the sort. -/
def rankRel (a b : String × Nat) : Prop :=
  rankLE a b = true

instance : DecidableRel rankRel := fun a b => by
  unfold rankRel; infer_instance

/-- Ranked output entry (`NGramData` in the types module). -/
structure NGramData where
  sequence : String
  frequency : Nat
  rank : Nat
deriving Repr, DecidableEq

/-- `mapToRankedArray` at the code-point instantiation of the host
comparator: stably sort by the two-key comparator, then attach 1-based
ranks by position.  The version parametric in the host's
`localeCompare` is `mapToRankedArrayWith` below. -/
def mapToRankedArray (countMap : CountMap) : List NGramData :=
  let sorted := List.insertionSort rankRel countMap.map
  sorted.enum.map fun p => ⟨p.2.1, p.2.2, p.1 + 1⟩

/-- The two-key comparator of `mapToRankedArray` with the host's string
comparator `cmp` (the model of `localeCompare`) kept abstract:
`b[1] - a[1]` when frequencies differ, else `cmp a[0] b[0]`. -/
def rankCmpWith (cmp : String → String → Int) (a b : String × Nat) : Int :=
  if b.2 ≠ a.2 then (b.2 : Int) - (a.2 : Int)
  else cmp a.1 b.1

/-- `a` sorts no later than `b` under the comparator built on `cmp`. -/
def rankLEWith (cmp : String → String → Int) (a b : String × Nat) : Bool :=
  rankCmpWith cmp a b ≤ 0

/-- The comparator order built on `cmp`, as a relation. -/
def rankRelWith (cmp : String → String → Int) (a b : String × Nat) : Prop :=
  rankLEWith cmp a b = true

instance (cmp : String → String → Int) : DecidableRel (rankRelWith cmp) :=
  fun a b => by unfold rankRelWith; infer_instance

/-- `mapToRankedArray` parametric in the host comparator `cmp`:
`Array.prototype.sort` with a consistent comparator must produce a
stable arrangement in comparator order, and insertion sort is such a
sort (entries the comparator ties keep their presentation order). -/
def mapToRankedArrayWith (cmp : String → String → Int)
    (countMap : CountMap) : List NGramData :=
  let sorted := List.insertionSort (rankRelWith cmp) countMap.map
  sorted.enum.map fun p => ⟨p.2.1, p.2.2, p.1 + 1⟩

/-- String comparison through a projection to character lists:
negative, zero or positive by code-point comparison of the images. -/
def throughCmp (f : String → List Char) (a b : String) : Int :=
  if lexLt (f a) (f b) then -1
  else if f a = f b then 0
  else 1

/-- The code-point instantiation of `localeCompare`: compare the
character lists directly.  One conforming host behavior (a consistent
comparison that never ties distinct strings). -/
def codePointCmp : String → String → Int :=
  throughCmp String.data

/-- The one-character fragment of Unicode canonical decomposition the
counterexamples need: `é` (U+00E9) decomposes to `e` followed by the
combining acute accent (U+0301). -/
def decomposeChar (c : Char) : List Char :=
  if c = 'é' then ['e', '\u0301'] else [c]

/-- A conforming locale-style `localeCompare`: compare canonical
decompositions by code point.  ECMA-262 recommends that
`localeCompare` treat canonically equivalent strings as identical, so
a conforming host may return 0 on distinct strings such as NFC and NFD
`é` — this comparator exhibits exactly that behavior while remaining a
consistent comparison. -/
def collationCmp : String → String → Int :=
  throughCmp fun s => (s.data.map decomposeChar).flatten

/-- The record returned by `calculateFilteredNGrams`. -/
structure FilteredNGrams where
  monograms : List NGramData
  bigrams : List NGramData
  trigrams : List NGramData
  skipgrams : List NGramData
  words : List NGramData
  totalMonograms : Nat
  totalBigrams : Nat
  totalTrigrams : Nat
  totalSkipgrams : Nat
  totalWords : Nat
deriving Repr, DecidableEq

/-- `calculateFilteredNGrams`: scan once, filter/reaggregate each of the
five tables under the shared settings, extract the five totals, and rank
each filtered map. -/
def calculateFilteredNGrams (text : List Char) (filters : FilterSettings) :
    FilteredNGrams :=
  let rawCounts := calculateNGrams text
  let filteredMonograms := filterAndReaggregate rawCounts.monograms filters
  let filteredBigrams := filterAndReaggregate rawCounts.bigrams filters
  let filteredTrigrams := filterAndReaggregate rawCounts.trigrams filters
  let filteredSkipgrams := filterAndReaggregate rawCounts.skipgrams filters
  let filteredWords := filterAndReaggregate rawCounts.words filters
  { monograms := mapToRankedArray filteredMonograms
    bigrams := mapToRankedArray filteredBigrams
    trigrams := mapToRankedArray filteredTrigrams
    skipgrams := mapToRankedArray filteredSkipgrams
    words := mapToRankedArray filteredWords
    totalMonograms := filteredMonograms.total
    totalBigrams := filteredBigrams.total
    totalTrigrams := filteredTrigrams.total
    totalSkipgrams := filteredSkipgrams.total
    totalWords := filteredWords.total }

/-- Sum of the counts stored in a table. -/
def tableSum (m : Table) : Nat :=
  (m.map Prod.snd).sum

/-- The keys of a table, in insertion order. -/
def tableKeys (m : Table) : List String :=
  m.map Prod.fst

/-- A raw pair survives the whitespace and punctuation filters
(the complement of the two `continue` branches of
`filterAndReaggregate`). -/
def passesFilters (filters : FilterSettings) (e : String × Nat) : Bool :=
  !(filters.filterWhitespace && containsWhitespace e.1) &&
  !(filters.filterPunctuation && containsPunctuation e.1)

/-- Sum of the `frequency` fields of a ranked list. -/
def sumFreq (l : List NGramData) : Nat :=
  (l.map NGramData.frequency).sum

/-- Per-entry contribution of a raw pair to the aggregated count of the
normalized key `k`. -/
def contrib (filters : FilterSettings) (k : String) (e : String × Nat) : Nat :=
  if passesFilters filters e &&
      (normalizeSequence e.1 filters.caseSensitive = k : Bool) then e.2
  else 0

/-- Code-point lexicographic `≤` on strings, used to state the
tie-breaking invariant. -/
def lexLe (a b : String) : Prop :=
  lexLt a.data b.data = true ∨ a = b

/-- Word tokenizer used only by the scan's word table: splits on
whitespace, carrying the accumulator the loop carries. -/
def tokensFrom (acc : String) (l : List Char) : List String :=
  match l with
  | [] => if acc.length > 0 then [acc] else []
  | c :: rest =>
      if isWhitespace c then
        if acc.length > 0 then acc :: tokensFrom "" rest
        else tokensFrom "" rest
      else tokensFrom (acc.push c) rest

/-- Modelled from the spec: "splitting text on whitespace and counting
non-empty tokens" — the maximal non-whitespace runs of the text,
obtained by splitting at every whitespace character and dropping the
empty chunks. -/
def splitTokens (l : List Char) : List String :=
  ((l.splitOnP isWhitespace).filter (fun cs => cs ≠ [])).map String.mk

/-! ## CSV export (`escapeCSVField`, `exportToCSV`) -/

/-- The five table types. -/
inductive NGramType where
  | monograms
  | bigrams
  | trigrams
  | skipgrams
  | words
deriving Repr, DecidableEq

/-- `getSequenceColumnLabel`. -/
def getSequenceColumnLabel : NGramType → String
  | .monograms => "Monogram"
  | .bigrams => "Bigram"
  | .trigrams => "Trigram"
  | .skipgrams => "Skipgram"
  | .words => "Word"

/-- `value.replace(/"/g, '""')`, character by character. -/
def doubleQuotes (l : List Char) : List Char :=
  match l with
  | [] => []
  | c :: rest =>
      if c = '"' then '"' :: '"' :: doubleQuotes rest
      else c :: doubleQuotes rest

/-- `escapeCSVField`: wrap in quotes and double the embedded quotes when
the value contains a comma, a quote or a newline. -/
def escapeCSVField (value : String) : String :=
  if value.data.contains ',' || value.data.contains '"' ||
      value.data.contains '\n' then
    "\"" ++ String.mk (doubleQuotes value.data) ++ "\""
  else value

/-- Left-pad a numeral to 3 digits. -/
def pad3 (s : String) : String :=
  if s.length = 1 then "00" ++ s
  else if s.length = 2 then "0" ++ s
  else s

/-- `(num / den).toFixed(3)`: the exact rational `num / den` rendered
with 3 decimal places, rounding half up (the `toFixed` rounding rule for
non-negative values). -/
def toFixed3 (num den : Nat) : String :=
  let n := (num * 2000 + den) / (2 * den)
  toString (n / 1000) ++ "." ++ pad3 (toString (n % 1000))

/-- One data row of the export: rank, the sequence wrapped in literal
quotes and CSV-escaped, the count, and the percentage. -/
def csvRow (ngram : NGramData) (total : Nat) : String :=
  let sequence := escapeCSVField ("\"" ++ ngram.sequence ++ "\"")
  let counts := toString ngram.frequency
  let frequency :=
    if total > 0 then toFixed3 (ngram.frequency * 100) total else "0.000"
  toString ngram.rank ++ "," ++ sequence ++ "," ++ counts ++ "," ++
    frequency ++ "%"

/-- The `lines` array built by `exportToCSV` before it is joined and
downloaded: one header row, then one data row per entry. -/
def csvLines (ngramData : List NGramData) (type : NGramType) (total : Nat) :
    List String :=
  ("Rank," ++ getSequenceColumnLabel type ++ ",Counts,Frequency") ::
    ngramData.map fun ngram => csvRow ngram total

/-! ## URL state (`serializeState`, `deserializeState`)

`URLSearchParams` is modelled as a key-value list in insertion order:
`set` replaces the value of an existing key in place and appends a fresh
key; `get` returns the first value for a key.  -/

/-- Key-value pair list standing for `URLSearchParams`. -/
abbrev Params := List (String × String)

/-- `params.set(k, v)`. -/
def paramsSet (ps : Params) (k v : String) : Params :=
  match ps with
  | [] => [(k, v)]
  | (k', v') :: rest =>
      if k' = k then (k, v) :: rest else (k', v') :: paramsSet rest k v

/-- `params.get(k)`: `some` value or `none` for JS `null`. -/
def paramsGet (ps : Params) (k : String) : Option String :=
  match ps with
  | [] => none
  | (k', v') :: rest => if k' = k then some v' else paramsGet rest k

/-- A loaded corpus (`text` omitted: the serializer only reads `name`
and `isCustom`). -/
structure Corpus where
  name : String
  isCustom : Bool
deriving Repr, DecidableEq

/-- `SearchSettings` from the types module. -/
structure SearchSettings where
  query : String
  useRegex : Bool
  limit : Nat
  filters : FilterSettings
deriving Repr, DecidableEq

/-- `Partial<CorpusExplorerState>` restricted to the fields the URL
serializer touches.  An outer `none` is an absent (`undefined`) field;
for `corpus` the inner `Option` is the `null` marker the deserializer
uses for a custom corpus. -/
structure PartialState where
  corpus : Option (Option Corpus) := none
  selectedNGramType : Option NGramType := none
  search : Option SearchSettings := none
deriving Repr, DecidableEq

/-- The URL value of each `NGramType`. -/
def ngramTypeToString : NGramType → String
  | .monograms => "monograms"
  | .bigrams => "bigrams"
  | .trigrams => "trigrams"
  | .skipgrams => "skipgrams"
  | .words => "words"

/-- Parse an `NGramType` URL value. -/
def stringToNGramType (s : String) : Option NGramType :=
  if s = "monograms" then some .monograms
  else if s = "bigrams" then some .bigrams
  else if s = "trigrams" then some .trigrams
  else if s = "skipgrams" then some .skipgrams
  else if s = "words" then some .words
  else none

/-- `serializeState`: write only the non-default values. -/
def serializeState (state : PartialState) : Params :=
  let params : Params := []
  let params :=
    match state.corpus with
    | some (some corpus) =>
        if corpus.isCustom then paramsSet params "corpus" "custom"
        else paramsSet params "corpus" corpus.name
    | _ => params
  let params :=
    match state.selectedNGramType with
    | some t => if t ≠ .bigrams then paramsSet params "type" (ngramTypeToString t) else params
    | none => params
  match state.search with
  | none => params
  | some search =>
    let params :=
      if search.limit > 0 then paramsSet params "limit" (toString search.limit)
      else params
    let params :=
      if search.query ≠ "" then paramsSet params "search" search.query
      else params
    let params :=
      if search.useRegex then paramsSet params "regex" "true" else params
    let params :=
      if !search.filters.filterWhitespace then
        paramsSet params "whitespace" "false"
      else params
    let params :=
      if search.filters.filterPunctuation then paramsSet params "punct" "true"
      else params
    if search.filters.caseSensitive then paramsSet params "case" "true"
    else params

/-- The `validTypes` whitelist of `deserializeState` (as written in the
source: `skipgrams` is absent). -/
def validTypes : List String :=
  ["monograms", "bigrams", "trigrams", "words"]

/-- `parseInt(s, 10)` restricted to the canonical decimal numerals the
serializer emits; other inputs are modelled as `NaN` (`none`). -/
def jsParseInt (s : String) : Option Nat :=
  s.toNat?

/-- `deserializeState`: read each key, falling back to the documented
defaults for the subfields of `search` when at least one search or
filter key is present, and to an absent `search` field otherwise. -/
def deserializeState (params : Params) : PartialState :=
  let corpus : Option (Option Corpus) :=
    match paramsGet params "corpus" with
    | some corpusParam =>
        if corpusParam ≠ "" then
          if corpusParam = "custom" then some none
          else some (some ⟨corpusParam, false⟩)
        else none
    | none => none
  let selectedNGramType : Option NGramType :=
    match paramsGet params "type" with
    | some typeParam =>
        if typeParam ≠ "" && validTypes.contains typeParam then
          stringToNGramType typeParam
        else none
    | none => none
  let limitO : Option Nat :=
    match paramsGet params "limit" with
    | some limitParam =>
        if limitParam ≠ "" then
          match jsParseInt limitParam with
          | some limit => if limit > 0 then some limit else none
          | none => none
        else none
    | none => none
  let queryO : Option String := paramsGet params "search"
  let regexO : Option Bool :=
    if paramsGet params "regex" = some "true" then some true else none
  let whitespaceO : Option Bool :=
    if paramsGet params "whitespace" = some "false" then some false else none
  let punctO : Option Bool :=
    if paramsGet params "punct" = some "true" then some true else none
  let caseO : Option Bool :=
    if paramsGet params "case" = some "true" then some true else none
  let search : Option SearchSettings :=
    if limitO.isSome || queryO.isSome || regexO.isSome || whitespaceO.isSome ||
        punctO.isSome || caseO.isSome then
      some
        { query := queryO.getD ""
          useRegex := regexO.getD false
          limit := limitO.getD 0
          filters :=
            { filterWhitespace := whitespaceO.getD true
              filterPunctuation := punctO.getD false
              caseSensitive := caseO.getD false } }
    else none
  { corpus := corpus, selectedNGramType := selectedNGramType, search := search }

/-- Invariant carried by the scan state: key shapes, positive counts,
and a whitespace-free word accumulator. -/
def ScanInv (st : ScanState) : Prop :=
  (∀ p ∈ st.monograms, p.1.length = 1 ∧ 1 ≤ p.2) ∧
  (∀ p ∈ st.bigrams, p.1.length = 2 ∧ 1 ≤ p.2) ∧
  (∀ p ∈ st.trigrams, p.1.length = 3 ∧ 1 ≤ p.2) ∧
  (∀ p ∈ st.skipgrams, p.1.length = 2 ∧ 1 ≤ p.2) ∧
  (∀ p ∈ st.words,
      p.1 ≠ "" ∧ (∀ ch ∈ p.1.data, isWhitespace ch = false) ∧ 1 ≤ p.2) ∧
  (∀ ch ∈ st.currentWord.data, isWhitespace ch = false)

/-! # Theorems -/

/-! ## Table lemmas -/

theorem tableSum_cons (p : String × Nat) (m : Table) :
    tableSum (p :: m) = p.2 + tableSum m := by
  simp [tableSum]

theorem tableSum_append (m₁ m₂ : Table) :
    tableSum (m₁ ++ m₂) = tableSum m₁ + tableSum m₂ := by
  simp [tableSum]

theorem tableSum_mapAdd (m : Table) (k : String) (n : Nat) :
    tableSum (mapAdd m k n) = tableSum m + n := by
  induction m with
  | nil => simp [mapAdd, tableSum]
  | cons p rest ih =>
      obtain ⟨k', v⟩ := p
      by_cases h : k' = k <;>
        simp [mapAdd, h, tableSum_cons, ih] <;> omega

theorem tableKeys_nil : tableKeys [] = [] := rfl

theorem tableKeys_cons (p : String × Nat) (m : Table) :
    tableKeys (p :: m) = p.1 :: tableKeys m := rfl

theorem tableKeys_append (m₁ m₂ : Table) :
    tableKeys (m₁ ++ m₂) = tableKeys m₁ ++ tableKeys m₂ := by
  simp [tableKeys]

theorem lookup_mapAdd (m : Table) (k q : String) (n : Nat) :
    lookup (mapAdd m k n) q = lookup m q + (if q = k then n else 0) := by
  induction m with
  | nil =>
      by_cases h : k = q
      · subst h; simp [mapAdd, lookup]
      · simp [mapAdd, lookup, h, Ne.symm h]
  | cons p rest ih =>
      obtain ⟨k', v⟩ := p
      by_cases h1 : k' = k
      · subst h1
        by_cases h2 : k' = q
        · subst h2; simp [mapAdd, lookup]
        · simp [mapAdd, lookup, h2, Ne.symm h2]
      · by_cases h2 : k' = q
        · subst h2
          simp [mapAdd, lookup, h1, Ne.symm h1]
        · simp [mapAdd, lookup, h1, h2, ih]

theorem mapAdd_of_not_mem {m : Table} {k : String} (n : Nat)
    (h : k ∉ tableKeys m) : mapAdd m k n = m ++ [(k, n)] := by
  induction m with
  | nil => rfl
  | cons p rest ih =>
      obtain ⟨k', v⟩ := p
      rw [tableKeys_cons, List.mem_cons] at h
      push_neg at h
      simp [mapAdd, Ne.symm h.1, ih h.2]

theorem tableKeys_mapAdd (m : Table) (k : String) (n : Nat) :
    tableKeys (mapAdd m k n) =
      if k ∈ tableKeys m then tableKeys m else tableKeys m ++ [k] := by
  induction m with
  | nil => simp [mapAdd, tableKeys_nil, tableKeys_cons]
  | cons p rest ih =>
      obtain ⟨k', v⟩ := p
      by_cases h : k' = k
      · subst h
        simp [mapAdd, tableKeys_cons]
      · rw [show mapAdd ((k', v) :: rest) k n = (k', v) :: mapAdd rest k n by
          simp [mapAdd, h]]
        rw [tableKeys_cons, tableKeys_cons, ih]
        by_cases h2 : k ∈ tableKeys rest <;>
          simp [h2, List.mem_cons, Ne.symm h]

theorem tableKeys_mapAdd_nodup {m : Table} {k : String} {n : Nat}
    (h : (tableKeys m).Nodup) : (tableKeys (mapAdd m k n)).Nodup := by
  rw [tableKeys_mapAdd]
  by_cases hk : k ∈ tableKeys m
  · simpa [hk] using h
  · rw [if_neg hk]
    refine List.Nodup.append h (List.nodup_singleton k) ?_
    intro a ha hb
    rw [List.mem_singleton] at hb
    exact hk (hb ▸ ha)

theorem mem_mapAdd {m : Table} {k : String} {n : Nat} {p : String × Nat}
    (h : p ∈ mapAdd m k n) : p ∈ m ∨ p.1 = k := by
  induction m with
  | nil =>
      rw [show mapAdd [] k n = [(k, n)] from rfl, List.mem_singleton] at h
      right; rw [h]
  | cons q rest ih =>
      obtain ⟨k', v⟩ := q
      by_cases hq : k' = k
      · subst hq
        rw [show mapAdd ((k', v) :: rest) k' n = (k', v + n) :: rest by
          simp [mapAdd]] at h
        rcases List.mem_cons.mp h with h | h
        · right; rw [h]
        · left; exact List.mem_cons_of_mem _ h
      · rw [show mapAdd ((k', v) :: rest) k n = (k', v) :: mapAdd rest k n by
          simp [mapAdd, hq]] at h
        rcases List.mem_cons.mp h with h | h
        · left; rw [h]; exact List.mem_cons_self _ _
        · rcases ih h with h' | h'
          · left; exact List.mem_cons_of_mem _ h'
          · right; exact h'

theorem mapAdd_inv {shape : String → Prop} {m : Table} {k : String} {n : Nat}
    (hm : ∀ p ∈ m, shape p.1 ∧ 1 ≤ p.2) (hk : shape k) (hn : 1 ≤ n) :
    ∀ p ∈ mapAdd m k n, shape p.1 ∧ 1 ≤ p.2 := by
  induction m with
  | nil =>
      intro p hp
      rw [show mapAdd [] k n = [(k, n)] from rfl, List.mem_singleton] at hp
      subst hp
      exact ⟨hk, hn⟩
  | cons q rest ih =>
      obtain ⟨k', v⟩ := q
      intro p hp
      by_cases hq : k' = k
      · subst hq
        rw [show mapAdd ((k', v) :: rest) k' n = (k', v + n) :: rest by
          simp [mapAdd]] at hp
        rcases List.mem_cons.mp hp with hp | hp
        · subst hp
          have := hm (k', v) (List.mem_cons_self _ _)
          exact ⟨this.1, by omega⟩
        · exact hm p (List.mem_cons_of_mem _ hp)
      · rw [show mapAdd ((k', v) :: rest) k n = (k', v) :: mapAdd rest k n by
          simp [mapAdd, hq]] at hp
        rcases List.mem_cons.mp hp with hp | hp
        · subst hp
          exact hm (k', v) (List.mem_cons_self _ _)
        · exact ih (fun p hp => hm p (List.mem_cons_of_mem _ hp)) p hp

theorem lookup_eq_of_mem {m : Table} {k : String} {v : Nat}
    (hnd : (tableKeys m).Nodup) (h : (k, v) ∈ m) : lookup m k = v := by
  induction m with
  | nil => simp at h
  | cons q rest ih =>
      obtain ⟨k', v'⟩ := q
      rw [tableKeys_cons, List.nodup_cons] at hnd
      rcases List.mem_cons.mp h with h1 | h1
      · injection h1 with hk hv
        subst hk; subst hv
        simp [lookup]
      · have hk : k' ≠ k := by
          intro he; subst he
          have hmem : ((k', v) : String × Nat).1 ∈ tableKeys rest :=
            List.mem_map_of_mem Prod.fst h1
          exact hnd.1 hmem
        simp [lookup, hk, ih hnd.2 h1]

theorem mem_of_lookup_ne_zero {m : Table} {k : String}
    (h : lookup m k ≠ 0) : (k, lookup m k) ∈ m := by
  induction m with
  | nil => simp [lookup] at h
  | cons q rest ih =>
      obtain ⟨k', v'⟩ := q
      by_cases hk : k' = k
      · subst hk; simp [lookup]
      · simp only [lookup, if_neg hk] at h ⊢
        exact List.mem_cons_of_mem _ (ih h)

theorem lookup_eq_zero_of_not_mem {m : Table} {k : String}
    (h : k ∉ tableKeys m) : lookup m k = 0 := by
  induction m with
  | nil => rfl
  | cons q rest ih =>
      obtain ⟨k', v'⟩ := q
      rw [tableKeys_cons, List.mem_cons] at h
      push_neg at h
      simp [lookup, Ne.symm h.1, ih h.2]

/-! ## Scan step projections -/

theorem scanStep_monograms (c : Char) (rest : List Char) (st : ScanState) :
    (scanStep c rest st).monograms = mapAdd st.monograms (String.mk [c]) 1 := by
  rcases rest with _ | ⟨c1, _ | ⟨c2, r⟩⟩ <;>
    (simp only [scanStep]; split <;> first | rfl | (split <;> rfl))

theorem scanStep_bigrams_nil (c : Char) (st : ScanState) :
    (scanStep c [] st).bigrams = st.bigrams := by
  simp only [scanStep]
  split <;> first | rfl | (split <;> rfl)

theorem scanStep_bigrams_cons (c c1 : Char) (r2 : List Char) (st : ScanState) :
    (scanStep c (c1 :: r2) st).bigrams =
      mapAdd st.bigrams (String.mk [c, c1]) 1 := by
  rcases r2 with _ | ⟨c2, r⟩ <;>
    (simp only [scanStep]; split <;> first | rfl | (split <;> rfl))

theorem scanStep_trigrams_nil (c : Char) (st : ScanState) :
    (scanStep c [] st).trigrams = st.trigrams := by
  simp only [scanStep]
  split <;> first | rfl | (split <;> rfl)

theorem scanStep_trigrams_one (c c1 : Char) (st : ScanState) :
    (scanStep c [c1] st).trigrams = st.trigrams := by
  simp only [scanStep]
  split <;> first | rfl | (split <;> rfl)

theorem scanStep_trigrams_cons (c c1 c2 : Char) (r : List Char) (st : ScanState) :
    (scanStep c (c1 :: c2 :: r) st).trigrams =
      mapAdd st.trigrams (String.mk [c, c1, c2]) 1 := by
  simp only [scanStep]
  split <;> first | rfl | (split <;> rfl)

theorem scanStep_skipgrams_nil (c : Char) (st : ScanState) :
    (scanStep c [] st).skipgrams = st.skipgrams := by
  simp only [scanStep]
  split <;> first | rfl | (split <;> rfl)

theorem scanStep_skipgrams_one (c c1 : Char) (st : ScanState) :
    (scanStep c [c1] st).skipgrams = st.skipgrams := by
  simp only [scanStep]
  split <;> first | rfl | (split <;> rfl)

theorem scanStep_skipgrams_cons (c c1 c2 : Char) (r : List Char) (st : ScanState) :
    (scanStep c (c1 :: c2 :: r) st).skipgrams =
      mapAdd st.skipgrams (String.mk [c, c2]) 1 := by
  simp only [scanStep]
  split <;> first | rfl | (split <;> rfl)

theorem scanStep_words (c : Char) (rest : List Char) (st : ScanState) :
    (scanStep c rest st).words =
      if isWhitespace c ∧ st.currentWord.length > 0 then
        mapAdd st.words st.currentWord 1
      else st.words := by
  rcases rest with _ | ⟨c1, _ | ⟨c2, r⟩⟩ <;>
    simp only [scanStep] <;> split_ifs <;> simp_all

theorem scanStep_currentWord (c : Char) (rest : List Char) (st : ScanState) :
    (scanStep c rest st).currentWord =
      if isWhitespace c then
        (if st.currentWord.length > 0 then "" else st.currentWord)
      else st.currentWord.push c := by
  rcases rest with _ | ⟨c1, _ | ⟨c2, r⟩⟩ <;>
    simp only [scanStep] <;> split_ifs <;> simp_all

/-! ## C4: raw table count sums -/

theorem scanAux_monograms_sum (l : List Char) (st : ScanState) :
    tableSum (scanAux l st).monograms = tableSum st.monograms + l.length := by
  induction l generalizing st with
  | nil => simp [scanAux]
  | cons c rest ih =>
      rw [scanAux, ih, scanStep_monograms, tableSum_mapAdd]
      simp; omega

theorem scanAux_bigrams_sum (l : List Char) (st : ScanState) :
    tableSum (scanAux l st).bigrams = tableSum st.bigrams + (l.length - 1) := by
  induction l generalizing st with
  | nil => simp [scanAux]
  | cons c rest ih =>
      rw [scanAux, ih]
      rcases rest with _ | ⟨c1, r2⟩
      · rw [scanStep_bigrams_nil]; simp
      · rw [scanStep_bigrams_cons, tableSum_mapAdd]
        simp; omega

theorem scanAux_trigrams_sum (l : List Char) (st : ScanState) :
    tableSum (scanAux l st).trigrams = tableSum st.trigrams + (l.length - 2) := by
  induction l generalizing st with
  | nil => simp [scanAux]
  | cons c rest ih =>
      rw [scanAux, ih]
      rcases rest with _ | ⟨c1, _ | ⟨c2, r⟩⟩
      · rw [scanStep_trigrams_nil]; simp
      · rw [scanStep_trigrams_one]; simp
      · rw [scanStep_trigrams_cons, tableSum_mapAdd]
        simp; omega

theorem scanAux_skipgrams_sum (l : List Char) (st : ScanState) :
    tableSum (scanAux l st).skipgrams = tableSum st.skipgrams + (l.length - 2) := by
  induction l generalizing st with
  | nil => simp [scanAux]
  | cons c rest ih =>
      rw [scanAux, ih]
      rcases rest with _ | ⟨c1, _ | ⟨c2, r⟩⟩
      · rw [scanStep_skipgrams_nil]; simp
      · rw [scanStep_skipgrams_one]; simp
      · rw [scanStep_skipgrams_cons, tableSum_mapAdd]
        simp; omega

/-- C4: the sum of all counts in the raw monogram table equals the text
length; the raw bigram counts sum to `length - 1` for texts of length at
least 2 and to 0 below that; the raw trigram and skipgram counts sum to
`length - 2` for length at least 3 and to 0 below that; and the empty
text yields five empty tables. -/
theorem C4_raw_table_sums (text : List Char) :
    tableSum (calculateNGrams text).monograms = text.length ∧
    (2 ≤ text.length →
      tableSum (calculateNGrams text).bigrams = text.length - 1) ∧
    (text.length < 2 → tableSum (calculateNGrams text).bigrams = 0) ∧
    (3 ≤ text.length →
      tableSum (calculateNGrams text).trigrams = text.length - 2) ∧
    (text.length < 3 → tableSum (calculateNGrams text).trigrams = 0) ∧
    (3 ≤ text.length →
      tableSum (calculateNGrams text).skipgrams = text.length - 2) ∧
    (text.length < 3 → tableSum (calculateNGrams text).skipgrams = 0) ∧
    (text = [] → calculateNGrams text = ⟨[], [], [], [], []⟩) := by
  have hm := scanAux_monograms_sum text ⟨[], [], [], [], [], ""⟩
  have hb := scanAux_bigrams_sum text ⟨[], [], [], [], [], ""⟩
  have ht := scanAux_trigrams_sum text ⟨[], [], [], [], [], ""⟩
  have hs := scanAux_skipgrams_sum text ⟨[], [], [], [], [], ""⟩
  simp only [tableSum, List.map_nil, List.sum_nil, Nat.zero_add] at hm hb ht hs
  refine ⟨?_, ?_, ?_, ?_, ?_, ?_, ?_, ?_⟩
  · simpa [calculateNGrams, tableSum] using hm
  · intro h; simpa [calculateNGrams, tableSum] using hb
  · intro h
    have : text.length - 1 = 0 := by omega
    simpa [calculateNGrams, tableSum, this] using hb
  · intro h; simpa [calculateNGrams, tableSum] using ht
  · intro h
    have : text.length - 2 = 0 := by omega
    simpa [calculateNGrams, tableSum, this] using ht
  · intro h; simpa [calculateNGrams, tableSum] using hs
  · intro h
    have : text.length - 2 = 0 := by omega
    simpa [calculateNGrams, tableSum, this] using hs
  · rintro rfl; decide

/-- Witness for C4 at the concrete text `"ab c"` (length 4). -/
theorem C4_raw_table_sums_witness :
    tableSum (calculateNGrams "ab c".data).monograms = 4 ∧
    tableSum (calculateNGrams "ab c".data).bigrams = 3 ∧
    tableSum (calculateNGrams "ab c".data).trigrams = 2 ∧
    tableSum (calculateNGrams "ab c".data).skipgrams = 2 := by
  obtain ⟨h1, h2, -, h4, -, h6, -, -⟩ := C4_raw_table_sums "ab c".data
  refine ⟨by simpa using h1, ?_, ?_, ?_⟩
  · have := h2 (by decide); simpa using this
  · have := h4 (by decide); simpa using this
  · have := h6 (by decide); simpa using this

/-! ## C9: no-op filter settings are the identity -/

theorem fraStep_no_filters (acc : CountMap) (e : String × Nat) :
    fraStep ⟨false, false, true⟩ acc e =
      ⟨mapAdd acc.map e.1 e.2, acc.total + e.2⟩ := by
  simp [fraStep, normalizeSequence]

theorem fra_identity_aux (m : Table) : ∀ (acc : CountMap),
    (tableKeys m).Nodup → (∀ k ∈ tableKeys m, k ∉ tableKeys acc.map) →
    m.foldl (fraStep ⟨false, false, true⟩) acc =
      ⟨acc.map ++ m, acc.total + tableSum m⟩ := by
  induction m with
  | nil =>
      intro acc _ _
      cases acc
      simp [tableSum]
  | cons p rest ih =>
      obtain ⟨k, v⟩ := p
      intro acc hnd hdis
      rw [List.foldl_cons, fraStep_no_filters]
      have hk : k ∉ tableKeys acc.map :=
        hdis k (by rw [tableKeys_cons]; exact List.mem_cons_self _ _)
      rw [tableKeys_cons, List.nodup_cons] at hnd
      have hdis' : ∀ q ∈ tableKeys rest,
          q ∉ tableKeys (mapAdd acc.map k v) := by
        intro q hq
        rw [mapAdd_of_not_mem v hk, tableKeys_append]
        intro hmem
        rcases List.mem_append.mp hmem with hmem | hmem
        · exact hdis q (by rw [tableKeys_cons]; exact List.mem_cons_of_mem _ hq)
            hmem
        · rw [show tableKeys [(k, v)] = [k] from rfl, List.mem_singleton] at hmem
          exact hnd.1 (hmem ▸ hq)
      have ih' := ih ⟨mapAdd acc.map k v, acc.total + v⟩ hnd.2 hdis'
      rw [ih']
      dsimp only
      rw [mapAdd_of_not_mem v hk, List.append_assoc, List.singleton_append,
        tableSum_cons]
      rw [CountMap.mk.injEq]
      exact ⟨rfl, by omega⟩

/-- C9: running the filter / re-aggregation step with
`filterWhitespace = false`, `filterPunctuation = false` and
`caseSensitive = true` is the identity on any raw table (distinct keys):
the output map is exactly the input list of pairs and the total is the
sum of all input counts. -/
theorem C9_no_filter_identity (m : Table) (h : (tableKeys m).Nodup) :
    filterAndReaggregate m ⟨false, false, true⟩ = ⟨m, tableSum m⟩ := by
  have := fra_identity_aux m ⟨[], 0⟩ h (fun k _ => List.not_mem_nil k)
  simpa [filterAndReaggregate] using this

/-- Witness for C9 at a concrete two-entry table. -/
theorem C9_no_filter_identity_witness :
    filterAndReaggregate [("Ab", 2), ("c d", 1)] ⟨false, false, true⟩ =
      ⟨[("Ab", 2), ("c d", 1)], tableSum [("Ab", 2), ("c d", 1)]⟩ :=
  C9_no_filter_identity _ (by decide)

/-! ## C10: key shapes and positive counts in the raw tables -/

theorem length_mk_one (c : Char) : (String.mk [c]).length = 1 := rfl

theorem scanStep_inv (c : Char) (rest : List Char) {st : ScanState}
    (h : ScanInv st) : ScanInv (scanStep c rest st) := by
  obtain ⟨h1, h2, h3, h4, h5, h6⟩ := h
  refine ⟨?_, ?_, ?_, ?_, ?_, ?_⟩
  · rw [scanStep_monograms]
    exact @mapAdd_inv (fun s => s.length = 1) _ _ _ h1 rfl (le_refl 1)
  · rcases rest with _ | ⟨c1, r2⟩
    · rw [scanStep_bigrams_nil]; exact h2
    · rw [scanStep_bigrams_cons]
      exact @mapAdd_inv (fun s => s.length = 2) _ _ _ h2 rfl (le_refl 1)
  · rcases rest with _ | ⟨c1, _ | ⟨c2, r⟩⟩
    · rw [scanStep_trigrams_nil]; exact h3
    · rw [scanStep_trigrams_one]; exact h3
    · rw [scanStep_trigrams_cons]
      exact @mapAdd_inv (fun s => s.length = 3) _ _ _ h3 rfl (le_refl 1)
  · rcases rest with _ | ⟨c1, _ | ⟨c2, r⟩⟩
    · rw [scanStep_skipgrams_nil]; exact h4
    · rw [scanStep_skipgrams_one]; exact h4
    · rw [scanStep_skipgrams_cons]
      exact @mapAdd_inv (fun s => s.length = 2) _ _ _ h4 rfl (le_refl 1)
  · rw [scanStep_words]
    split_ifs with hw
    · have hshape : st.currentWord ≠ "" ∧
          (∀ ch ∈ st.currentWord.data, isWhitespace ch = false) := by
        refine ⟨?_, h6⟩
        intro he
        rw [he] at hw
        simp at hw
      have h5' : ∀ p ∈ st.words,
          (p.1 ≠ "" ∧ (∀ ch ∈ p.1.data, isWhitespace ch = false)) ∧
            1 ≤ p.2 := by
        intro p hp
        obtain ⟨a, b, cpos⟩ := h5 p hp
        exact ⟨⟨a, b⟩, cpos⟩
      intro p hp
      obtain ⟨⟨a, b⟩, cpos⟩ :=
        @mapAdd_inv
          (fun s => s ≠ "" ∧ ∀ ch ∈ s.data, isWhitespace ch = false)
          _ _ _ h5' hshape (le_refl 1) p hp
      exact ⟨a, b, cpos⟩
    · exact h5
  · rw [scanStep_currentWord]
    split_ifs with hws hpos
    · intro ch hc
      simp at hc
    · exact h6
    · intro ch hc
      rw [String.data_push] at hc
      rcases List.mem_append.mp hc with hc | hc
      · exact h6 ch hc
      · rw [List.mem_singleton] at hc
        subst hc
        simpa using hws

theorem scanAux_inv (l : List Char) {st : ScanState} (h : ScanInv st) :
    ScanInv (scanAux l st) := by
  induction l generalizing st with
  | nil => exact h
  | cons c rest ih => exact ih (scanStep_inv c rest h)

/-- C10: every key in the raw tables has the fixed shape of its table
(monogram keys length 1, bigram keys length 2, trigram keys length 3,
skipgram keys length 2, word keys non-empty and whitespace-free) and
every stored count is at least 1. -/
theorem C10_raw_table_shapes (text : List Char) :
    (∀ p ∈ (calculateNGrams text).monograms, p.1.length = 1 ∧ 1 ≤ p.2) ∧
    (∀ p ∈ (calculateNGrams text).bigrams, p.1.length = 2 ∧ 1 ≤ p.2) ∧
    (∀ p ∈ (calculateNGrams text).trigrams, p.1.length = 3 ∧ 1 ≤ p.2) ∧
    (∀ p ∈ (calculateNGrams text).skipgrams, p.1.length = 2 ∧ 1 ≤ p.2) ∧
    (∀ p ∈ (calculateNGrams text).words,
        p.1 ≠ "" ∧ (∀ ch ∈ p.1.data, isWhitespace ch = false) ∧ 1 ≤ p.2) := by
  have hinit : ScanInv ⟨[], [], [], [], [], ""⟩ := by
    refine ⟨?_, ?_, ?_, ?_, ?_, ?_⟩ <;> intro p hp <;> simp at hp
  have hinv := scanAux_inv text hinit
  obtain ⟨h1, h2, h3, h4, h5, h6⟩ := hinv
  refine ⟨h1, h2, h3, h4, ?_⟩
  show ∀ p ∈ flushWords (scanAux text ⟨[], [], [], [], [], ""⟩), _
  unfold flushWords
  split_ifs with hw
  · have hshape :
        (scanAux text ⟨[], [], [], [], [], ""⟩).currentWord ≠ "" ∧
        (∀ ch ∈ (scanAux text ⟨[], [], [], [], [], ""⟩).currentWord.data,
          isWhitespace ch = false) := by
      refine ⟨?_, h6⟩
      intro he
      rw [he] at hw
      simp at hw
    have h5' : ∀ p ∈ (scanAux text ⟨[], [], [], [], [], ""⟩).words,
        (p.1 ≠ "" ∧ (∀ ch ∈ p.1.data, isWhitespace ch = false)) ∧ 1 ≤ p.2 := by
      intro p hp
      obtain ⟨a, b, cpos⟩ := h5 p hp
      exact ⟨⟨a, b⟩, cpos⟩
    intro p hp
    obtain ⟨⟨a, b⟩, cpos⟩ :=
      @mapAdd_inv
        (fun s => s ≠ "" ∧ ∀ ch ∈ s.data, isWhitespace ch = false)
        _ _ _ h5' hshape (le_refl 1) p hp
    exact ⟨a, b, cpos⟩
  · exact h5

/-- Witness for C10: a concrete bigram entry of the text `"abc"`. -/
theorem C10_raw_table_shapes_witness :
    (("ab", 1) : String × Nat).1.length = 2 ∧
      1 ≤ (("ab", 1) : String × Nat).2 :=
  (C10_raw_table_shapes "abc".data).2.1 ("ab", 1) (by decide)

/-! ## C5: the word table counts the whitespace-delimited tokens -/

theorem data_empty : ("" : String).data = [] := rfl

theorem mk_data (s : String) : String.mk s.data = s := rfl

theorem string_pos_iff (s : String) : s.length > 0 ↔ s.data ≠ [] := by
  rw [show s.length = s.data.length from rfl]
  cases s.data <;> simp

theorem string_eq_empty_of_not_pos {s : String} (h : ¬s.length > 0) :
    s = "" := by
  cases s with
  | mk data =>
      cases data with
      | nil => rfl
      | cons c cs =>
          exact absurd (by simp [String.length]) h

theorem modifyHead_comp (f g : List Char → List Char)
    (l : List (List Char)) :
    (l.modifyHead g).modifyHead f = l.modifyHead (fun a => f (g a)) := by
  cases l <;> rfl

theorem modifyHead_id (l : List (List Char)) :
    l.modifyHead (fun a => a) = l := by
  cases l <;> rfl

theorem lookup_flushWords_scanAux (l : List Char) :
    ∀ (st : ScanState) (w : String),
      lookup (flushWords (scanAux l st)) w =
        lookup st.words w + (tokensFrom st.currentWord l).count w := by
  induction l with
  | nil =>
      intro st w
      rw [scanAux]
      unfold flushWords tokensFrom
      split_ifs with h
      · rw [lookup_mapAdd]
        by_cases hw : w = st.currentWord <;> simp [hw]
      · simp
  | cons c rest ih =>
      intro st w
      rw [scanAux, ih]
      rw [scanStep_words, scanStep_currentWord]
      by_cases hws : isWhitespace c
      · by_cases hpos : st.currentWord.length > 0
        · rw [if_pos ⟨(by simpa using hws), hpos⟩, if_pos (by simpa using hws),
            if_pos hpos]
          rw [lookup_mapAdd]
          rw [show tokensFrom st.currentWord (c :: rest) =
              st.currentWord :: tokensFrom "" rest from by
            rw [tokensFrom, if_pos hws, if_pos hpos]]
          rw [List.count_cons]
          by_cases hw : w = st.currentWord
          · subst hw
            simp only [if_pos rfl, beq_self_eq_true, if_true]
            omega
          · have h2 : (st.currentWord == w) = false := by
              simpa using Ne.symm hw
            simp only [if_neg hw, h2, Bool.false_eq_true, if_false]
            omega
        · rw [if_neg (by simp [hws, hpos] : ¬(isWhitespace c = true ∧
              st.currentWord.length > 0)),
            if_pos (by simpa using hws), if_neg hpos]
          rw [show tokensFrom st.currentWord (c :: rest) =
              tokensFrom "" rest from by
            rw [tokensFrom, if_pos hws, if_neg hpos]]
          rw [string_eq_empty_of_not_pos hpos]
      · rw [if_neg (by simp [hws] : ¬(isWhitespace c = true ∧
            st.currentWord.length > 0)), if_neg (by simpa using hws)]
        rw [show tokensFrom st.currentWord (c :: rest) =
            tokensFrom (st.currentWord.push c) rest from by
          rw [tokensFrom, if_neg hws]]

theorem tokensFrom_eq_splitOnP (l : List Char) : ∀ (acc : String),
    tokensFrom acc l =
      (((l.splitOnP isWhitespace).modifyHead
          (fun cs => acc.data ++ cs)).filter
        (fun cs => cs ≠ [])).map String.mk := by
  induction l with
  | nil =>
      intro acc
      rw [tokensFrom, List.splitOnP_nil]
      rw [show (([[]] : List (List Char)).modifyHead
          (fun cs => acc.data ++ cs)) = [acc.data ++ []] from rfl]
      rw [List.append_nil, List.filter_cons]
      split_ifs with h1 h2 h2
      · rw [List.filter_nil, List.map_cons, List.map_nil, mk_data]
      · exact absurd (by simpa using (string_pos_iff acc).mp h1) h2
      · exact absurd h1 (by simpa [string_pos_iff] using h2)
      · rw [List.filter_nil, List.map_nil]
  | cons c rest ih =>
      intro acc
      rw [tokensFrom, List.splitOnP_cons]
      by_cases hws : isWhitespace c
      · rw [if_pos hws, if_pos hws]
        rw [show (([] :: List.splitOnP isWhitespace rest).modifyHead
            (fun cs => acc.data ++ cs)) =
            (acc.data ++ []) :: List.splitOnP isWhitespace rest from rfl]
        rw [List.append_nil, List.filter_cons]
        have hrest : tokensFrom "" rest =
            ((List.splitOnP isWhitespace rest).filter
              (fun cs => cs ≠ [])).map String.mk := by
          rw [ih ""]
          simp only [data_empty, List.nil_append, modifyHead_id]
        by_cases hpos : acc.length > 0
        · rw [if_pos hpos,
            if_pos (by simpa using (string_pos_iff acc).mp hpos)]
          rw [List.map_cons, mk_data, hrest]
        · rw [if_neg hpos,
            if_neg (by simpa [string_pos_iff] using hpos)]
          exact hrest
      · rw [if_neg hws, if_neg hws]
        rw [ih (acc.push c), modifyHead_comp]
        simp only [String.data_push, List.append_assoc, List.singleton_append]

/-- C5: for every text and string `w`, the raw word table's count for
`w` equals the number of maximal non-whitespace runs of the text that
equal `w` (the multiset of non-empty tokens obtained by splitting on
whitespace, including a final word when the text does not end in
whitespace). -/
theorem C5_word_table (text : List Char) (w : String) :
    lookup (calculateNGrams text).words w = (splitTokens text).count w := by
  have h := lookup_flushWords_scanAux text ⟨[], [], [], [], [], ""⟩ w
  show lookup (flushWords (scanAux text ⟨[], [], [], [], [], ""⟩)) w = _
  rw [h]
  rw [show lookup [] w = 0 from rfl, Nat.zero_add]
  rw [show (⟨[], [], [], [], [], ""⟩ : ScanState).currentWord = "" from rfl]
  rw [tokensFrom_eq_splitOnP]
  simp only [data_empty, List.nil_append, modifyHead_id]
  rfl

/-! ## C1: list sums equal the precomputed totals -/

theorem fra_total_aux (m : Table) (f : FilterSettings) : ∀ (acc : CountMap),
    (m.foldl (fraStep f) acc).total =
      acc.total + tableSum (m.filter (passesFilters f)) := by
  induction m with
  | nil =>
      intro acc
      simp [tableSum]
  | cons e rest ih =>
      intro acc
      rw [List.foldl_cons, List.filter_cons]
      by_cases h1 : (f.filterWhitespace && containsWhitespace e.1) = true
      · rw [show fraStep f acc e = acc from by simp [fraStep, h1]]
        rw [show passesFilters f e = false from by simp [passesFilters, h1]]
        simpa using ih acc
      · by_cases h2 : (f.filterPunctuation && containsPunctuation e.1) = true
        · rw [show fraStep f acc e = acc from by simp [fraStep, h1, h2]]
          rw [show passesFilters f e = false from by simp [passesFilters, h2]]
          simpa using ih acc
        · rw [show fraStep f acc e =
              ⟨mapAdd acc.map (normalizeSequence e.1 f.caseSensitive) e.2,
                acc.total + e.2⟩ from by simp [fraStep, h1, h2]]
          rw [show passesFilters f e = true from by
            simp [passesFilters, h1, h2]]
          rw [if_pos rfl, ih, tableSum_cons]
          dsimp only
          omega

theorem fra_map_total_aux (m : Table) (f : FilterSettings) : ∀ (acc : CountMap),
    tableSum acc.map = acc.total →
    tableSum ((m.foldl (fraStep f) acc).map) = (m.foldl (fraStep f) acc).total := by
  induction m with
  | nil => intro acc h; exact h
  | cons e rest ih =>
      intro acc h
      rw [List.foldl_cons]
      refine ih (fraStep f acc e) ?_
      unfold fraStep
      split_ifs with h1 h2
      · exact h
      · exact h
      · dsimp only
        rw [tableSum_mapAdd, h]

theorem fra_map_sum (m : Table) (f : FilterSettings) :
    tableSum ((filterAndReaggregate m f).map) =
      (filterAndReaggregate m f).total :=
  fra_map_total_aux m f ⟨[], 0⟩ rfl

theorem sumFreq_mapToRankedArray (cm : CountMap) :
    sumFreq (mapToRankedArray cm) = tableSum cm.map := by
  unfold sumFreq mapToRankedArray tableSum
  rw [List.map_map]
  rw [show (NGramData.frequency ∘ fun p : Nat × (String × Nat) =>
      (⟨p.2.1, p.2.2, p.1 + 1⟩ : NGramData)) =
      (Prod.snd ∘ Prod.snd) from rfl]
  rw [← List.map_map, List.enum_map_snd]
  exact List.Perm.sum_eq
    (List.Perm.map Prod.snd (List.perm_insertionSort rankRel cm.map))

theorem ranked_sum_eq_total (m : Table) (f : FilterSettings) :
    sumFreq (mapToRankedArray (filterAndReaggregate m f)) =
        (filterAndReaggregate m f).total ∧
      (filterAndReaggregate m f).total =
        tableSum (m.filter (passesFilters f)) := by
  constructor
  · rw [sumFreq_mapToRankedArray, fra_map_sum]
  · have := fra_total_aux m f ⟨[], 0⟩
    simpa [filterAndReaggregate] using this

/-- C1: for every text and filter settings, each of the five ranked
lists sums (over `frequency`) to the corresponding total, and that
total is the sum of the counts of exactly the raw pairs that pass the
whitespace and punctuation filters (counted before case folding
collapses keys). -/
theorem C1_list_sums_equal_totals (text : List Char) (f : FilterSettings) :
    (sumFreq (calculateFilteredNGrams text f).monograms =
        (calculateFilteredNGrams text f).totalMonograms ∧
      (calculateFilteredNGrams text f).totalMonograms =
        tableSum (((calculateNGrams text).monograms).filter
          (passesFilters f))) ∧
    (sumFreq (calculateFilteredNGrams text f).bigrams =
        (calculateFilteredNGrams text f).totalBigrams ∧
      (calculateFilteredNGrams text f).totalBigrams =
        tableSum (((calculateNGrams text).bigrams).filter
          (passesFilters f))) ∧
    (sumFreq (calculateFilteredNGrams text f).trigrams =
        (calculateFilteredNGrams text f).totalTrigrams ∧
      (calculateFilteredNGrams text f).totalTrigrams =
        tableSum (((calculateNGrams text).trigrams).filter
          (passesFilters f))) ∧
    (sumFreq (calculateFilteredNGrams text f).skipgrams =
        (calculateFilteredNGrams text f).totalSkipgrams ∧
      (calculateFilteredNGrams text f).totalSkipgrams =
        tableSum (((calculateNGrams text).skipgrams).filter
          (passesFilters f))) ∧
    (sumFreq (calculateFilteredNGrams text f).words =
        (calculateFilteredNGrams text f).totalWords ∧
      (calculateFilteredNGrams text f).totalWords =
        tableSum (((calculateNGrams text).words).filter
          (passesFilters f))) :=
  ⟨ranked_sum_eq_total (calculateNGrams text).monograms f,
   ranked_sum_eq_total (calculateNGrams text).bigrams f,
   ranked_sum_eq_total (calculateNGrams text).trigrams f,
   ranked_sum_eq_total (calculateNGrams text).skipgrams f,
   ranked_sum_eq_total (calculateNGrams text).words f⟩

/-! ## C2: ranking invariants -/

theorem lexLt_irrefl (a : List Char) : lexLt a a = false := by
  induction a with
  | nil => rfl
  | cons x xs ih =>
      rw [lexLt, if_neg (lt_irrefl x), if_neg (lt_irrefl x)]
      exact ih

theorem lexLt_trans (a : List Char) : ∀ b c,
    lexLt a b = true → lexLt b c = true → lexLt a c = true := by
  induction a with
  | nil =>
      intro b c hab hbc
      cases b with
      | nil => simp [lexLt] at hab
      | cons y ys =>
          cases c with
          | nil => simp [lexLt] at hbc
          | cons z zs => simp [lexLt]
  | cons x xs ih =>
      intro b c hab hbc
      cases b with
      | nil => simp [lexLt] at hab
      | cons y ys =>
          cases c with
          | nil => simp [lexLt] at hbc
          | cons z zs =>
              rw [lexLt] at hab hbc ⊢
              by_cases h1 : x < y
              · by_cases h2 : y < z
                · rw [if_pos (lt_trans h1 h2)]
                · rw [if_neg h2] at hbc
                  by_cases h3 : z < y
                  · rw [if_pos h3] at hbc
                    exact absurd hbc (by simp)
                  · have hyz : y = z :=
                      le_antisymm (le_of_not_lt h3) (le_of_not_lt h2)
                    rw [if_pos (hyz ▸ h1)]
              · rw [if_neg h1] at hab
                by_cases h3 : y < x
                · rw [if_pos h3] at hab
                  exact absurd hab (by simp)
                · have hxy : x = y :=
                    le_antisymm (le_of_not_lt h3) (le_of_not_lt h1)
                  rw [if_neg h3] at hab
                  by_cases h2 : y < z
                  · rw [if_pos (hxy ▸ h2)]
                  · rw [if_neg h2] at hbc
                    by_cases h4 : z < y
                    · rw [if_pos h4] at hbc
                      exact absurd hbc (by simp)
                    · rw [if_neg h4] at hbc
                      have hyz : y = z :=
                        le_antisymm (le_of_not_lt h4) (le_of_not_lt h2)
                      subst hxy
                      subst hyz
                      rw [if_neg h1, if_neg h3]
                      exact ih ys zs hab hbc

theorem lexLt_total_eq (a : List Char) : ∀ b,
    lexLt a b = false → lexLt b a = false → a = b := by
  induction a with
  | nil =>
      intro b h1 _
      cases b with
      | nil => rfl
      | cons y ys => simp [lexLt] at h1
  | cons x xs ih =>
      intro b h1 h2
      cases b with
      | nil => simp [lexLt] at h2
      | cons y ys =>
          rw [lexLt] at h1 h2
          by_cases hxy : x < y
          · rw [if_pos hxy] at h1
            exact absurd h1 (by simp)
          · by_cases hyx : y < x
            · rw [if_pos hyx] at h2
              exact absurd h2 (by simp)
            · have hx : x = y :=
                le_antisymm (le_of_not_lt hyx) (le_of_not_lt hxy)
              rw [if_neg hxy, if_neg hyx] at h1
              rw [if_neg hyx, if_neg hxy] at h2
              rw [hx, ih ys h1 h2]

theorem string_eq_of_data_eq {a b : String} (h : a.data = b.data) : a = b := by
  rw [← mk_data a, ← mk_data b, h]

theorem throughCmp_le_iff (f : String → List Char) (a b : String) :
    throughCmp f a b ≤ 0 ↔ (lexLt (f a) (f b) = true ∨ f a = f b) := by
  unfold throughCmp
  split_ifs with h1 h2
  · constructor
    · intro _; exact Or.inl h1
    · intro _; decide
  · constructor
    · intro _; exact Or.inr h2
    · intro _; decide
  · constructor
    · intro h; exact absurd h (by decide)
    · rintro (h | h)
      · exact absurd h h1
      · exact absurd h h2

theorem throughCmp_le_total (f : String → List Char) (a b : String) :
    throughCmp f a b ≤ 0 ∨ throughCmp f b a ≤ 0 := by
  rw [throughCmp_le_iff, throughCmp_le_iff]
  by_cases h1 : lexLt (f a) (f b) = true
  · exact Or.inl (Or.inl h1)
  · by_cases h2 : lexLt (f b) (f a) = true
    · exact Or.inr (Or.inl h2)
    · exact Or.inl (Or.inr
        (lexLt_total_eq _ _ (by simpa using h1) (by simpa using h2)))

theorem throughCmp_le_trans (f : String → List Char) (a b c : String)
    (h1 : throughCmp f a b ≤ 0) (h2 : throughCmp f b c ≤ 0) :
    throughCmp f a c ≤ 0 := by
  rw [throughCmp_le_iff] at h1 h2 ⊢
  rcases h1 with h1 | h1
  · rcases h2 with h2 | h2
    · exact Or.inl (lexLt_trans _ _ _ h1 h2)
    · exact Or.inl (by rw [← h2]; exact h1)
  · rcases h2 with h2 | h2
    · exact Or.inl (by rw [h1]; exact h2)
    · exact Or.inr (h1.trans h2)

theorem throughCmp_antisym (f : String → List Char)
    (hinj : ∀ x y : String, f x = f y → x = y) (a b : String)
    (h1 : throughCmp f a b ≤ 0) (h2 : throughCmp f b a ≤ 0) : a = b := by
  rw [throughCmp_le_iff] at h1 h2
  rcases h1 with h1 | h1
  · rcases h2 with h2 | h2
    · have := lexLt_trans _ _ _ h1 h2
      rw [lexLt_irrefl] at this
      exact absurd this (by simp)
    · rw [h2] at h1
      rw [lexLt_irrefl] at h1
      exact absurd h1 (by simp)
  · exact hinj a b h1

theorem codePointCmp_le_total (a b : String) :
    codePointCmp a b ≤ 0 ∨ codePointCmp b a ≤ 0 :=
  throughCmp_le_total String.data a b

theorem codePointCmp_le_trans (a b c : String) (h1 : codePointCmp a b ≤ 0)
    (h2 : codePointCmp b c ≤ 0) : codePointCmp a c ≤ 0 :=
  throughCmp_le_trans String.data a b c h1 h2

theorem codePointCmp_antisym (a b : String) (h1 : codePointCmp a b ≤ 0)
    (h2 : codePointCmp b a ≤ 0) : a = b :=
  throughCmp_antisym String.data (fun _ _ h => string_eq_of_data_eq h) a b h1 h2

theorem rankLEWith_iff (cmp : String → String → Int) (a b : String × Nat) :
    rankLEWith cmp a b = true ↔
      b.2 < a.2 ∨ (a.2 = b.2 ∧ cmp a.1 b.1 ≤ 0) := by
  unfold rankLEWith rankCmpWith
  rw [decide_eq_true_eq]
  by_cases h : b.2 = a.2
  · rw [if_neg (by simp [h])]
    constructor
    · intro h1; exact Or.inr ⟨h.symm, h1⟩
    · rintro (h1 | ⟨_, h1⟩)
      · exact absurd h1 (by omega)
      · exact h1
  · rw [if_pos h]
    constructor
    · intro h1; left; omega
    · rintro (h1 | ⟨h1, _⟩)
      · omega
      · exact absurd h1 (by omega)

theorem rankRelWith_total (cmp : String → String → Int)
    (htotal : ∀ a b, cmp a b ≤ 0 ∨ cmp b a ≤ 0) :
    ∀ a b : String × Nat, rankRelWith cmp a b ∨ rankRelWith cmp b a := by
  intro a b
  unfold rankRelWith
  rw [rankLEWith_iff, rankLEWith_iff]
  by_cases h : a.2 = b.2
  · rcases htotal a.1 b.1 with h1 | h1
    · exact Or.inl (Or.inr ⟨h, h1⟩)
    · exact Or.inr (Or.inr ⟨h.symm, h1⟩)
  · rcases Nat.lt_or_ge a.2 b.2 with h2 | h2
    · exact Or.inr (Or.inl h2)
    · exact Or.inl (Or.inl (by omega))

theorem rankRelWith_trans (cmp : String → String → Int)
    (htrans : ∀ a b c, cmp a b ≤ 0 → cmp b c ≤ 0 → cmp a c ≤ 0) :
    ∀ a b c : String × Nat,
      rankRelWith cmp a b → rankRelWith cmp b c → rankRelWith cmp a c := by
  intro a b c hab hbc
  unfold rankRelWith at *
  rw [rankLEWith_iff] at hab hbc ⊢
  rcases hab with hab | ⟨hab1, hab2⟩
  · rcases hbc with hbc | ⟨hbc1, _⟩ <;> left <;> omega
  · rcases hbc with hbc | ⟨hbc1, hbc2⟩
    · left; omega
    · exact Or.inr ⟨by omega, htrans _ _ _ hab2 hbc2⟩

theorem rankRelWith_antisymm (cmp : String → String → Int)
    (hanti : ∀ a b, cmp a b ≤ 0 → cmp b a ≤ 0 → a = b) :
    ∀ a b : String × Nat,
      rankRelWith cmp a b → rankRelWith cmp b a → a = b := by
  intro a b hab hba
  unfold rankRelWith at *
  rw [rankLEWith_iff] at hab hba
  have hfreq : a.2 = b.2 := by
    rcases hab with h | ⟨h, _⟩ <;> rcases hba with h' | ⟨h', _⟩ <;> omega
  have hseq : a.1 = b.1 := by
    rcases hab with h | ⟨_, h2⟩
    · omega
    · rcases hba with h' | ⟨_, h2'⟩
      · omega
      · exact hanti _ _ h2 h2'
  exact Prod.ext hseq hfreq

theorem mapToRankedArrayWith_length (cmp : String → String → Int)
    (cm : CountMap) :
    (mapToRankedArrayWith cmp cm).length =
      (List.insertionSort (rankRelWith cmp) cm.map).length := by
  simp [mapToRankedArrayWith]

theorem mapToRankedArrayWith_get (cmp : String → String → Int)
    (cm : CountMap) (j : Nat)
    (hj : j < (mapToRankedArrayWith cmp cm).length) :
    (mapToRankedArrayWith cmp cm).get ⟨j, hj⟩ =
      ⟨((List.insertionSort (rankRelWith cmp) cm.map).get
          ⟨j, by rw [← mapToRankedArrayWith_length]; exact hj⟩).1,
        ((List.insertionSort (rankRelWith cmp) cm.map).get
          ⟨j, by rw [← mapToRankedArrayWith_length]; exact hj⟩).2,
        j + 1⟩ := by
  simp only [mapToRankedArrayWith, List.get_eq_getElem, List.getElem_map,
    List.getElem_enum]

/-- C2 counterexample: the original claim asserts the equal-frequency
tie-break is ascending code-point lexicographic order of the sequences.
A conforming `localeCompare` may return 0 on the canonically equivalent
distinct keys NFC `é` and NFD `e` + U+0301 (`collationCmp` is such a
conforming comparator: consistent, see `throughCmp_le_total` /
`throughCmp_le_trans`), and the stable sort then keeps presentation
order: the word table of the text `é e\u0301` ranks NFC `é` first,
although it does not precede or equal NFD `e\u0301` in code-point
lexicographic order. -/
theorem C2_counterexample :
    collationCmp "é" "e\u0301" = 0 ∧
    collationCmp "e\u0301" "é" = 0 ∧
    "é" ≠ "e\u0301" ∧
    (calculateNGrams "é e\u0301".data).words = [("é", 1), ("e\u0301", 1)] ∧
    mapToRankedArrayWith collationCmp
        (filterAndReaggregate (calculateNGrams "é e\u0301".data).words
          ⟨true, false, true⟩) =
      [⟨"é", 1, 1⟩, ⟨"e\u0301", 1, 2⟩] ∧
    ¬lexLe "é" "e\u0301" := by
  refine ⟨by decide, by decide, by decide, by decide, by decide, ?_⟩
  unfold lexLe
  decide

/-- C2 (amended): for every ranked list produced under a host
comparator `cmp` that is a consistent comparison (total and transitive
at or below zero, as ECMA-262 requires of `localeCompare`), each
adjacent pair `(a, b)` satisfies `b.frequency ≤ a.frequency` and
`a.rank + 1 = b.rank` with the first entry having rank 1; when the
frequencies are equal, the host comparator does not order `b` strictly
before `a` (`cmp a.sequence b.sequence ≤ 0`).  The code-point
lexicographic tie-break of the original claim holds only for the
code-point instantiation of the comparator. -/
theorem C2_ranking_invariants_amended (cmp : String → String → Int)
    (htotal : ∀ a b, cmp a b ≤ 0 ∨ cmp b a ≤ 0)
    (htrans : ∀ a b c, cmp a b ≤ 0 → cmp b c ≤ 0 → cmp a c ≤ 0)
    (cm : CountMap) (i : Nat)
    (hi : i + 1 < (mapToRankedArrayWith cmp cm).length) :
    ((mapToRankedArrayWith cmp cm).get ⟨i + 1, hi⟩).frequency ≤
      ((mapToRankedArrayWith cmp cm).get
        ⟨i, Nat.lt_of_succ_lt hi⟩).frequency ∧
    ((mapToRankedArrayWith cmp cm).get ⟨i, Nat.lt_of_succ_lt hi⟩).rank + 1 =
      ((mapToRankedArrayWith cmp cm).get ⟨i + 1, hi⟩).rank ∧
    (((mapToRankedArrayWith cmp cm).get
          ⟨i, Nat.lt_of_succ_lt hi⟩).frequency =
        ((mapToRankedArrayWith cmp cm).get ⟨i + 1, hi⟩).frequency →
      cmp ((mapToRankedArrayWith cmp cm).get
            ⟨i, Nat.lt_of_succ_lt hi⟩).sequence
          ((mapToRankedArrayWith cmp cm).get ⟨i + 1, hi⟩).sequence ≤ 0) ∧
    ((mapToRankedArrayWith cmp cm).get
      ⟨0, Nat.lt_of_le_of_lt (Nat.zero_le _) hi⟩).rank = 1 := by
  haveI : IsTotal (String × Nat) (rankRelWith cmp) :=
    ⟨rankRelWith_total cmp htotal⟩
  haveI : IsTrans (String × Nat) (rankRelWith cmp) :=
    ⟨rankRelWith_trans cmp htrans⟩
  have hsorted : List.Pairwise (rankRelWith cmp)
      (List.insertionSort (rankRelWith cmp) cm.map) :=
    List.sorted_insertionSort (rankRelWith cmp) cm.map
  have hlen := mapToRankedArrayWith_length cmp cm
  have hi' : i + 1 < (List.insertionSort (rankRelWith cmp) cm.map).length := by
    rw [← hlen]; exact hi
  have hrel : rankRelWith cmp
      ((List.insertionSort (rankRelWith cmp) cm.map).get
        ⟨i, Nat.lt_of_succ_lt hi'⟩)
      ((List.insertionSort (rankRelWith cmp) cm.map).get ⟨i + 1, hi'⟩) := by
    rw [List.pairwise_iff_getElem] at hsorted
    simpa only [List.get_eq_getElem] using
      hsorted i (i + 1) (Nat.lt_of_succ_lt hi') hi' (Nat.lt_succ_self i)
  rw [rankRelWith, rankLEWith_iff] at hrel
  rw [mapToRankedArrayWith_get, mapToRankedArrayWith_get,
    mapToRankedArrayWith_get]
  refine ⟨?_, rfl, ?_, rfl⟩
  · rcases hrel with h | ⟨h, _⟩ <;> dsimp only <;> omega
  · intro hfe
    dsimp only at hfe ⊢
    rcases hrel with h | ⟨_, h2⟩
    · omega
    · exact h2

/-- Witness for the amended C2: the code-point comparator on a concrete
three-entry map. -/
theorem C2_ranking_invariants_amended_witness :
    ((mapToRankedArrayWith codePointCmp
        ⟨[("b", 2), ("a", 2), ("c", 5)], 9⟩).get ⟨0, by decide⟩).rank = 1 :=
  (C2_ranking_invariants_amended codePointCmp codePointCmp_le_total
    codePointCmp_le_trans ⟨[("b", 2), ("a", 2), ("c", 5)], 9⟩ 0
    (by decide)).2.2.2

/-! ## C3: what the punctuation filter actually discards -/

/-- C3 counterexample: the claim predicts that a key containing only a
non-ASCII letter survives the punctuation filter and that a key whose
only special character is an underscore is discarded.  The code does
the opposite on both inputs: `é` matches `[^\w\s]` (the ECMAScript `\w`
class is ASCII-only) and is discarded, while `_` is in `\w` and
`"a_b"` survives. -/
theorem C3_counterexample :
    filterAndReaggregate [("é", 1)] ⟨false, true, true⟩ = ⟨[], 0⟩ ∧
    filterAndReaggregate [("a_b", 2)] ⟨false, true, true⟩ =
      ⟨[("a_b", 2)], 2⟩ := by
  decide

/-- C3 (amended): with `filterPunctuation` enabled and the key not
discarded by the whitespace rule, a raw pair is discarded if and only
if the key contains a character that is neither an ECMAScript word
character (`[A-Za-z0-9_]`, ASCII-only) nor whitespace; in particular a
non-ASCII letter is discarded and an underscore survives. -/
theorem C3_punctuation_filter (k : String) (c : Nat) (f : FilterSettings)
    (hc : 0 < c) (hp : f.filterPunctuation = true)
    (hw : f.filterWhitespace = true → containsWhitespace k = false) :
    ((filterAndReaggregate [(k, c)] f).total = 0 ↔
      ∃ ch ∈ k.data, isWordChar ch = false ∧ isWhitespace ch = false) := by
  unfold filterAndReaggregate
  rw [List.foldl_cons, List.foldl_nil]
  unfold fraStep
  have hw' : (f.filterWhitespace && containsWhitespace k) = false := by
    cases hfw : f.filterWhitespace
    · simp
    · simp [hw hfw]
  by_cases hcp : containsPunctuation k = true
  · rw [if_neg (by simp [hw']), if_pos (by simp [hp, hcp])]
    constructor
    · intro _
      unfold containsPunctuation at hcp
      rw [List.any_eq_true] at hcp
      obtain ⟨ch, hmem, hch⟩ := hcp
      refine ⟨ch, hmem, ?_⟩
      simpa using hch
    · intro _; rfl
  · rw [if_neg (by simp [hw']), if_neg (by simp [hcp])]
    dsimp only
    constructor
    · intro h0; omega
    · rintro ⟨ch, hmem, hch⟩
      exfalso
      apply hcp
      unfold containsPunctuation
      rw [List.any_eq_true]
      exact ⟨ch, hmem, by simp [hch.1, hch.2]⟩

/-- Witness for the amended C3 at the concrete key `"é"`. -/
theorem C3_punctuation_filter_witness :
    (filterAndReaggregate [("é", 1)] ⟨false, true, false⟩).total = 0 ↔
      ∃ ch ∈ ("é" : String).data,
        isWordChar ch = false ∧ isWhitespace ch = false :=
  C3_punctuation_filter "é" 1 ⟨false, true, false⟩ (by decide) rfl (by decide)

/-! ## C8: CSV export -/

theorem doubleQuotes_eq_flatten (l : List Char) :
    doubleQuotes l =
      (l.map fun ch => if ch = '"' then ['"', '"'] else [ch]).flatten := by
  induction l with
  | nil => rfl
  | cons c rest ih =>
      by_cases h : c = '"' <;> simp [doubleQuotes, h, ih]

/-- C8: the export produces one header row
`Rank,<TypeLabel>,Counts,Frequency` and one data row per entry; a field
value containing a comma, quote or newline is wrapped in quotes with
every embedded quote doubled; the frequency field is the exact
percentage `(frequency / total) * 100` rendered with 3 decimal places
plus a percent sign, and `0.000` when the total is 0; and the entry
`{sequence: "a,b", frequency: 5, rank: 1}` with total 10 renders as
`1,"""a,b""",5,50.000%`. -/
theorem C8_csv_export :
    (∀ (d : List NGramData) (ty : NGramType) (total : Nat),
        csvLines d ty total =
          ("Rank," ++ getSequenceColumnLabel ty ++ ",Counts,Frequency") ::
            d.map fun g => csvRow g total) ∧
    (∀ v : String,
        escapeCSVField v =
          if v.data.contains ',' || v.data.contains '"' ||
              v.data.contains '\n' then
            "\"" ++ String.mk
              ((v.data.map fun ch =>
                  if ch = '"' then ['"', '"'] else [ch]).flatten) ++ "\""
          else v) ∧
    (∀ (g : NGramData) (total : Nat), 0 < total → csvRow g total =
        toString g.rank ++ "," ++
          escapeCSVField ("\"" ++ g.sequence ++ "\"") ++ "," ++
          toString g.frequency ++ "," ++
          toFixed3 (g.frequency * 100) total ++ "%") ∧
    (∀ g : NGramData, csvRow g 0 =
        toString g.rank ++ "," ++
          escapeCSVField ("\"" ++ g.sequence ++ "\"") ++ "," ++
          toString g.frequency ++ "," ++ "0.000" ++ "%") ∧
    csvRow ⟨"a,b", 5, 1⟩ 10 = "1,\"\"\"a,b\"\"\",5,50.000%" := by
  refine ⟨fun d ty total => rfl, ?_, ?_,
    fun g => by unfold csvRow; rw [if_neg (by decide)], by decide⟩
  · intro v
    unfold escapeCSVField
    split_ifs with h
    · rw [doubleQuotes_eq_flatten]
    · rfl
  · intro g total htot
    unfold csvRow
    rw [if_pos htot]

/-- Witness for C8 (the third conjunct has a positivity hypothesis):
the data row of a concrete entry with total 3. -/
theorem C8_csv_export_witness :
    csvRow ⟨"x", 1, 2⟩ 3 =
      toString (2 : Nat) ++ "," ++ escapeCSVField ("\"" ++ "x" ++ "\"") ++
        "," ++ toString (1 : Nat) ++ "," ++ toFixed3 (1 * 100) 3 ++ "%" :=
  C8_csv_export.2.2.1 ⟨"x", 1, 2⟩ 3 (by decide)

/-! ## C6: URL state round-trip loses the skipgrams selection -/

/-- C6 (code bug): serializing a state whose active table type is
`skipgrams` writes `type=skipgrams`, but `deserializeState` validates
the value against a whitelist that omits `"skipgrams"`, so the
deserialized state has no `selectedNGramType` at all and the caller's
default (`bigrams`) takes over instead of the serialized selection. -/
theorem C6_skipgrams_roundtrip_bug :
    serializeState
        { corpus := none, selectedNGramType := some NGramType.skipgrams,
          search := none } = [("type", "skipgrams")] ∧
    deserializeState [("type", "skipgrams")] =
      { corpus := none, selectedNGramType := none, search := none } ∧
    validTypes.contains "skipgrams" = false := by
  decide

/-! ## C7: order-independence of the ranked output -/

theorem lookup_fra_aux (m : Table) (f : FilterSettings) (k : String) :
    ∀ (acc : CountMap),
      lookup ((m.foldl (fraStep f) acc).map) k =
        lookup acc.map k + (m.map (contrib f k)).sum := by
  induction m with
  | nil => intro acc; simp
  | cons e rest ih =>
      intro acc
      rw [List.foldl_cons, List.map_cons, List.sum_cons, ih]
      by_cases h1 : (f.filterWhitespace && containsWhitespace e.1) = true
      · rw [show fraStep f acc e = acc from by simp [fraStep, h1]]
        rw [show contrib f k e = 0 from by
          simp [contrib, passesFilters, h1]]
        omega
      · by_cases h2 : (f.filterPunctuation && containsPunctuation e.1) = true
        · rw [show fraStep f acc e = acc from by simp [fraStep, h1, h2]]
          rw [show contrib f k e = 0 from by
            simp [contrib, passesFilters, h2]]
          omega
        · rw [show fraStep f acc e =
              ⟨mapAdd acc.map (normalizeSequence e.1 f.caseSensitive) e.2,
                acc.total + e.2⟩ from by simp [fraStep, h1, h2]]
          dsimp only
          rw [lookup_mapAdd]
          by_cases hn : normalizeSequence e.1 f.caseSensitive = k
          · rw [show contrib f k e = e.2 from by
              simp [contrib, passesFilters, h1, h2, hn]]
            rw [if_pos hn.symm]
            omega
          · rw [show contrib f k e = 0 from by
              simp [contrib, passesFilters, h1, h2, hn]]
            rw [if_neg (fun hk => hn hk.symm)]
            omega

theorem lookup_fra (m : Table) (f : FilterSettings) (k : String) :
    lookup ((filterAndReaggregate m f).map) k =
      (m.map (contrib f k)).sum := by
  have := lookup_fra_aux m f k ⟨[], 0⟩
  simpa [filterAndReaggregate,
    show lookup ([] : Table) k = 0 from rfl] using this

theorem fra_keys_nodup_aux (m : Table) (f : FilterSettings) :
    ∀ (acc : CountMap), (tableKeys acc.map).Nodup →
      (tableKeys ((m.foldl (fraStep f) acc).map)).Nodup := by
  induction m with
  | nil => intro acc h; exact h
  | cons e rest ih =>
      intro acc h
      rw [List.foldl_cons]
      refine ih (fraStep f acc e) ?_
      unfold fraStep
      split_ifs with h1 h2
      · exact h
      · exact h
      · exact tableKeys_mapAdd_nodup h

theorem fra_keys_nodup (m : Table) (f : FilterSettings) :
    (tableKeys ((filterAndReaggregate m f).map)).Nodup :=
  fra_keys_nodup_aux m f ⟨[], 0⟩ List.nodup_nil

theorem fra_pos_aux (m : Table) (f : FilterSettings)
    (hm : ∀ p ∈ m, 1 ≤ p.2) : ∀ (acc : CountMap),
      (∀ p ∈ acc.map, 1 ≤ p.2) →
      ∀ p ∈ (m.foldl (fraStep f) acc).map, 1 ≤ p.2 := by
  induction m with
  | nil => intro acc h; exact h
  | cons e rest ih =>
      intro acc h
      rw [List.foldl_cons]
      refine ih (fun p hp => hm p (List.mem_cons_of_mem _ hp))
        (fraStep f acc e) ?_
      unfold fraStep
      split_ifs with h1 h2
      · exact h
      · exact h
      · dsimp only
        intro p hp
        have h' : ∀ q ∈ acc.map, (fun _ : String => True) q.1 ∧ 1 ≤ q.2 :=
          fun q hq => ⟨trivial, h q hq⟩
        exact (@mapAdd_inv (fun _ => True) _ _ _ h' trivial
          (hm e (List.mem_cons_self _ _)) p hp).2

theorem fra_pos (m : Table) (f : FilterSettings)
    (hm : ∀ p ∈ m, 1 ≤ p.2) :
    ∀ p ∈ (filterAndReaggregate m f).map, 1 ≤ p.2 :=
  fra_pos_aux m f hm ⟨[], 0⟩ (by intro p hp; simp at hp)

theorem table_perm_of_lookup_eq {r₁ r₂ : Table}
    (h₁ : (tableKeys r₁).Nodup) (h₂ : (tableKeys r₂).Nodup)
    (hp₁ : ∀ p ∈ r₁, 1 ≤ p.2) (hp₂ : ∀ p ∈ r₂, 1 ≤ p.2)
    (hl : ∀ k, lookup r₁ k = lookup r₂ k) : r₁.Perm r₂ := by
  rw [List.perm_ext_iff_of_nodup (List.Nodup.of_map Prod.fst h₁)
    (List.Nodup.of_map Prod.fst h₂)]
  intro a
  obtain ⟨k, v⟩ := a
  constructor
  · intro hm
    have hv : lookup r₁ k = v := lookup_eq_of_mem h₁ hm
    have hvpos : v ≠ 0 := by have := hp₁ (k, v) hm; omega
    have hv₂ : lookup r₂ k = v := (hl k).symm.trans hv
    have := mem_of_lookup_ne_zero (by rw [hv₂]; exact hvpos)
    rwa [hv₂] at this
  · intro hm
    have hv : lookup r₂ k = v := lookup_eq_of_mem h₂ hm
    have hvpos : v ≠ 0 := by have := hp₂ (k, v) hm; omega
    have hv₁ : lookup r₁ k = v := (hl k).trans hv
    have := mem_of_lookup_ne_zero (by rw [hv₁]; exact hvpos)
    rwa [hv₁] at this

theorem mapToRankedArrayWith_eq_of_perm (cmp : String → String → Int)
    (htotal : ∀ a b, cmp a b ≤ 0 ∨ cmp b a ≤ 0)
    (htrans : ∀ a b c, cmp a b ≤ 0 → cmp b c ≤ 0 → cmp a c ≤ 0)
    (hanti : ∀ a b, cmp a b ≤ 0 → cmp b a ≤ 0 → a = b)
    {cm₁ cm₂ : CountMap} (h : cm₁.map.Perm cm₂.map) :
    mapToRankedArrayWith cmp cm₁ = mapToRankedArrayWith cmp cm₂ := by
  haveI : IsTotal (String × Nat) (rankRelWith cmp) :=
    ⟨rankRelWith_total cmp htotal⟩
  haveI : IsTrans (String × Nat) (rankRelWith cmp) :=
    ⟨rankRelWith_trans cmp htrans⟩
  haveI : IsAntisymm (String × Nat) (rankRelWith cmp) :=
    ⟨rankRelWith_antisymm cmp hanti⟩
  unfold mapToRankedArrayWith
  have hsort : List.insertionSort (rankRelWith cmp) cm₁.map =
      List.insertionSort (rankRelWith cmp) cm₂.map :=
    List.eq_of_perm_of_sorted
      ((List.perm_insertionSort (rankRelWith cmp) cm₁.map).trans
        (h.trans (List.perm_insertionSort (rankRelWith cmp) cm₂.map).symm))
      (List.sorted_insertionSort (rankRelWith cmp) cm₁.map)
      (List.sorted_insertionSort (rankRelWith cmp) cm₂.map)
  rw [hsort]

theorem fra_total (m : Table) (f : FilterSettings) :
    (filterAndReaggregate m f).total =
      tableSum (m.filter (passesFilters f)) := by
  have := fra_total_aux m f ⟨[], 0⟩
  simpa [filterAndReaggregate] using this

/-- C7 counterexample: the original claim asserts the ranked output is
invariant under any permutation of the raw pairs because the comparator
alone determines the order.  Under the conforming comparator
`collationCmp`, which ties the canonically equivalent distinct keys
NFC `é` and NFD `e` + U+0301 (as ECMA-262 recommends of
`localeCompare`), the stable sort keeps presentation order, so the two
presentations of the same raw multiset produce different ranked lists
(the totals still agree). -/
theorem C7_counterexample :
    ([("é", 1), ("e\u0301", 1)] : Table).Perm [("e\u0301", 1), ("é", 1)] ∧
    (filterAndReaggregate [("é", 1), ("e\u0301", 1)]
        ⟨true, false, true⟩).total =
      (filterAndReaggregate [("e\u0301", 1), ("é", 1)]
        ⟨true, false, true⟩).total ∧
    mapToRankedArrayWith collationCmp
        (filterAndReaggregate [("é", 1), ("e\u0301", 1)]
          ⟨true, false, true⟩) =
      [⟨"é", 1, 1⟩, ⟨"e\u0301", 1, 2⟩] ∧
    mapToRankedArrayWith collationCmp
        (filterAndReaggregate [("e\u0301", 1), ("é", 1)]
          ⟨true, false, true⟩) =
      [⟨"e\u0301", 1, 1⟩, ⟨"é", 1, 2⟩] :=
  ⟨List.Perm.swap ("e\u0301", 1) ("é", 1) [], by decide, by decide, by decide⟩

/-- C7 (amended): re-running the pipeline on identical input under the
same host is deterministic (it is a pure function of corpus, filters
and the host comparator), and the ranked output and total are invariant
under any permutation of the order in which the raw table's pairs
(distinct keys, positive counts) are presented **provided the host
comparator never ties distinct keys** (is antisymmetric, as the
code-point comparator is).  Under a conforming `localeCompare` that
ties canonically equivalent distinct keys, tied keys keep their
presentation order in the stable sort, so the unconditional permutation
invariance of the original claim fails. -/
theorem C7_order_independence_amended (cmp : String → String → Int)
    (htotal : ∀ a b, cmp a b ≤ 0 ∨ cmp b a ≤ 0)
    (htrans : ∀ a b c, cmp a b ≤ 0 → cmp b c ≤ 0 → cmp a c ≤ 0)
    (hanti : ∀ a b, cmp a b ≤ 0 → cmp b a ≤ 0 → a = b)
    (f : FilterSettings) (m₁ m₂ : Table)
    (hperm : m₁.Perm m₂) (hnd : (tableKeys m₁).Nodup)
    (hpos : ∀ p ∈ m₁, 1 ≤ p.2) :
    mapToRankedArrayWith cmp (filterAndReaggregate m₁ f) =
        mapToRankedArrayWith cmp (filterAndReaggregate m₂ f) ∧
      (filterAndReaggregate m₁ f).total =
        (filterAndReaggregate m₂ f).total := by
  have hnd₂ : (tableKeys m₂).Nodup :=
    ((hperm.map Prod.fst).nodup_iff).mp hnd
  have hpos₂ : ∀ p ∈ m₂, 1 ≤ p.2 :=
    fun p hp => hpos p (hperm.mem_iff.mpr hp)
  constructor
  · apply mapToRankedArrayWith_eq_of_perm cmp htotal htrans hanti
    apply table_perm_of_lookup_eq (fra_keys_nodup m₁ f) (fra_keys_nodup m₂ f)
      (fra_pos m₁ f hpos) (fra_pos m₂ f hpos₂)
    intro k
    rw [lookup_fra, lookup_fra]
    exact (hperm.map (contrib f k)).sum_eq
  · rw [fra_total, fra_total]
    unfold tableSum
    exact ((hperm.filter (passesFilters f)).map Prod.snd).sum_eq

/-- Witness for the amended C7: the code-point comparator (which never
ties distinct keys) on two presentation orders of the same two-entry
raw table. -/
theorem C7_order_independence_amended_witness :
    mapToRankedArrayWith codePointCmp
        (filterAndReaggregate [("a", 1), ("B", 2)] ⟨true, false, false⟩) =
        mapToRankedArrayWith codePointCmp
          (filterAndReaggregate [("B", 2), ("a", 1)] ⟨true, false, false⟩) ∧
      (filterAndReaggregate [("a", 1), ("B", 2)] ⟨true, false, false⟩).total =
        (filterAndReaggregate [("B", 2), ("a", 1)]
          ⟨true, false, false⟩).total :=
  C7_order_independence_amended codePointCmp codePointCmp_le_total
    codePointCmp_le_trans codePointCmp_antisym ⟨true, false, false⟩ _ _
    (List.Perm.swap ("B", 2) ("a", 1) []) (by decide) (by decide)
